import Mathlib

/-!
Verification of the CARM (Cache-Aware Roofline Model) builder, `builder.py`.

The two core functions `get_bandwidth` and `get_peak_performance` are embedded
shallowly below.  Python floats are modelled as exact rationals (`ℚ`); the float
constant `0.2` is modelled as the rational `1/5`.  Python exceptions
(`ZeroDivisionError` from `x / 0`, `ValueError` from `max([])`, `TypeError`) are
modelled with an `Except Err` monad: a list comprehension that may raise becomes
`exMap`, which stops at the first failing element exactly as the comprehension
does.  A Python `dict[str, int]` whose keys are parsed with `int(...)` and
iterated in insertion order is modelled as an ordered association list
`List (ℤ × ℤ)`.
-/

namespace Carm

/-- Runtime failures of the embedded code.  `zeroDivisionError` and
`valueError` model the Python exceptions of the same names; `typeError` models
`list.pop(None)` (unreachable in practice).  `invalidInput` is **modelled from
the spec** (§7 error taxonomy): the source defines no such error, and no code
path below ever produces it; it exists only so that claims about an
`InvalidInput` error can be stated. -/
inductive Err where
  | zeroDivisionError
  | valueError
  | typeError
  | invalidInput
deriving DecidableEq, Repr

/-- A bandwidth point as stored in a cluster: `(byte count, bandwidth)`,
mirroring `zip(bytes, bandwidth)` in `get_bandwidth` (line 24). -/
abbrev Pt : Type := ℤ × ℚ

/-- A cluster of bandwidth points, `builder.py` line 23 onward. -/
abbrev Cluster : Type := List Pt

/-- Effectful map over a list, modelling a Python list comprehension whose body
may raise: elements are evaluated left to right and the first exception
propagates. -/
def exMap (g : α → Except Err β) : List α → Except Err (List β)
  | [] => .ok []
  | a :: as => do
    let b ← g a
    let bs ← exMap g as
    return b :: bs

/-- Model of `frequency_hz * (b / c)` (line 19 / line 93): Python `/` is true
division and raises `ZeroDivisionError` when the divisor is zero. -/
def rateOf (frequency_hz : ℤ) (bc : ℤ × ℤ) : Except Err ℚ :=
  if bc.2 = 0 then .error .zeroDivisionError
  else .ok ((frequency_hz : ℚ) * ((bc.1 : ℚ) / (bc.2 : ℚ)))

/-- Model of line 19, `[frequency_hz * (b / c) for b, c in zip(bytes, cycles)]`,
applied to a sweep given as ordered `(size, cycles)` pairs (lines 17-19). -/
def computeRates (sweep : List (ℤ × ℤ)) (frequency_hz : ℤ) : Except Err (List ℚ) :=
  exMap (rateOf frequency_hz) ((sweep.map Prod.fst).zip (sweep.map Prod.snd))

/-- Model of `sum(c[1] for c in cluster) / len(cluster)` (lines 30, 47, 57).
The guard against `len = 0` is placed at each call site, as in the source. -/
def clusterAvg (c : Cluster) : ℚ :=
  (c.map Prod.snd).sum / (c.length : ℚ)

/-- The clustering threshold, line 21 (`CLUSTER_THRESHOLD = 0.2`). -/
def CLUSTER_THRESHOLD : ℚ := 1 / 5

/-- One iteration of the clustering loop, lines 24-40.  The Python list
`clusters` is always non-empty (it starts as `[[]]`); `clusters[-1]` is
`getLast?.getD []`, and mutating the last element is `dropLast ++ [...]`. -/
def clusterStep (clusters : List Cluster) (p : Pt) : List Cluster :=
  let current_cluster := clusters.getLast?.getD []
  if current_cluster.length = 0 then
    clusters.dropLast ++ [current_cluster ++ [p]]
  else
    let cluster_avg := clusterAvg current_cluster
    if |p.2 - cluster_avg| < CLUSTER_THRESHOLD * cluster_avg then
      clusters.dropLast ++ [current_cluster ++ [p]]
    else if current_cluster.length < 3 then
      clusters.dropLast ++ [[p]]
    else
      clusters ++ [[p]]

/-- The inner `for dev, idx in zip(deviation, range(...))` scan of lines 49-54:
`best`/`bi` hold `max_dev`/`max_idx` so far, `i` is the index of the head of
the remaining list.  The comparison is strict, so the first index attaining
the maximum wins, exactly as in the source. -/
def argmaxFrom (best : ℚ) (bi : ℕ) (i : ℕ) : List ℚ → ℕ
  | [] => bi
  | d :: ds => if best < d then argmaxFrom d i (i + 1) ds else argmaxFrom best bi (i + 1) ds

/-- Index of the first maximal element, modelling lines 49-54: `max_dev` starts
at `-math.inf`, so for a non-empty list the first element always replaces it
and the scan continues from index 1; for an empty list `max_idx` stays `None`. -/
def argmaxIdx : List ℚ → Option ℕ
  | [] => none
  | d :: ds => some (argmaxFrom d 0 1 ds)

/-- One iteration of the outlier-removal loop body, lines 47-55: compute the
cluster average (raising `ZeroDivisionError` on an empty cluster), find the
first point of maximal absolute deviation, and `pop` it.  The `typeError`
branch models `cluster.pop(None)` and is unreachable for non-empty clusters. -/
def trimOnce (cluster : Cluster) : Except Err Cluster :=
  if cluster.length = 0 then .error .zeroDivisionError
  else
    let average := clusterAvg cluster
    let deviation := cluster.map (fun p => |p.2 - average|)
    match argmaxIdx deviation with
    | none => .error .typeError
    | some i => .ok (cluster.eraseIdx i)

/-- Model of line 45, `max(1, min(int(len(cluster) * 0.5), len(cluster) - 1))`.
In Python, for `n = 0` the inner `min(0, -1)` is `-1` and the result is `1`;
with truncated `ℕ` subtraction `min 0 0 = 0` and the result is again `1`, so
the two agree for every `n`. -/
def pointsToRemove (n : ℕ) : ℕ :=
  max 1 (min (n / 2) (n - 1))

/-- The `for _ in range(points_to_remove)` loop of lines 46-55. -/
def trimLoop : ℕ → Cluster → Except Err Cluster
  | 0, c => .ok c
  | k + 1, c => do trimLoop k (← trimOnce c)

/-- Outlier trimming of one cluster, lines 43-55. -/
def trimCluster (cluster : Cluster) : Except Err Cluster :=
  trimLoop (pointsToRemove cluster.length) cluster

/-- Model of one element of line 57, `sum(p[1] for p in c) / len(c)`:
`ZeroDivisionError` when the trimmed cluster is empty. -/
def levelOf (c : Cluster) : Except Err ℚ :=
  if c.length = 0 then .error .zeroDivisionError
  else .ok (clusterAvg c)

/-- Model of `get_bandwidth` (lines 14-85) with plotting disabled: compute the
per-point bandwidths, run the clustering scan starting from `[[]]`, trim every
cluster, and reduce each trimmed cluster to its mean. -/
def get_bandwidth (memory_benchmark : List (ℤ × ℤ)) (frequency_hz : ℤ) :
    Except Err (List ℚ) := do
  let bandwidth ← computeRates memory_benchmark frequency_hz
  let pts := (memory_benchmark.map Prod.fst).zip bandwidth
  let clusters := pts.foldl clusterStep [[]]
  let trimmed ← exMap trimCluster clusters
  exMap levelOf trimmed

/-- Model of `get_peak_performance` (lines 88-114) with plotting disabled:
compute the per-point performances and return their maximum; `max([])` raises
`ValueError`. -/
def get_peak_performance (arithmetic_benchmark : List (ℤ × ℤ)) (frequency_hz : ℤ) :
    Except Err ℚ := do
  let performance ← computeRates arithmetic_benchmark frequency_hz
  match performance.max? with
  | none => .error .valueError
  | some m => .ok m

/-- Rates of a sweep made of constant-rate plateaus: plateau `(r, n)`
contributes `n` consecutive points of rate `r`. -/
def plateauRates (ps : List (ℚ × ℕ)) : List ℚ :=
  ps.flatMap (fun q => List.replicate q.2 q.1)

/-! ### General lemmas about the embedded building blocks -/

theorem exceptBind_ok {x : Except Err α} {f : α → Except Err β} {b : β}
    (h : Except.bind x f = .ok b) : ∃ a, x = .ok a ∧ f a = .ok b := by
  cases x with
  | error e => simp [Except.bind] at h
  | ok a => exact ⟨a, rfl, h⟩

theorem bind_eq_exceptBind (x : Except Err α) (f : α → Except Err β) :
    x >>= f = Except.bind x f := rfl

theorem ok_bind (a : α) (f : α → Except Err β) : Except.bind (.ok a) f = f a := rfl

theorem error_bind (e : Err) (f : α → Except Err β) :
    Except.bind (.error e) f = (.error e : Except Err β) := rfl

theorem exMap_nil (g : α → Except Err β) : exMap g [] = .ok [] := rfl

theorem exMap_cons (g : α → Except Err β) (a : α) (as : List α) :
    exMap g (a :: as) =
      Except.bind (g a) (fun b => Except.bind (exMap g as) (fun bs => .ok (b :: bs))) := rfl

theorem exMap_ok_length {g : α → Except Err β} :
    ∀ {l : List α} {l2 : List β}, exMap g l = .ok l2 → l2.length = l.length := by
  intro l
  induction l with
  | nil => intro l2 h; rw [exMap_nil] at h; cases h; rfl
  | cons a as ih =>
    intro l2 h
    rw [exMap_cons] at h
    obtain ⟨b, _, h2⟩ := exceptBind_ok h
    obtain ⟨bs, hbs, h3⟩ := exceptBind_ok h2
    cases h3
    simpa using ih hbs

theorem exMap_ok_mem {g : α → Except Err β} :
    ∀ {l : List α} {l2 : List β}, exMap g l = .ok l2 →
      ∀ b ∈ l2, ∃ a ∈ l, g a = .ok b := by
  intro l
  induction l with
  | nil => intro l2 h; rw [exMap_nil] at h; cases h; intro b hb; cases hb
  | cons a as ih =>
    intro l2 h
    rw [exMap_cons] at h
    obtain ⟨b, hga, h2⟩ := exceptBind_ok h
    obtain ⟨bs, hbs, h3⟩ := exceptBind_ok h2
    cases h3
    intro c hc
    rcases List.mem_cons.mp hc with rfl | hc
    · exact ⟨a, List.mem_cons_self a as, hga⟩
    · obtain ⟨a2, ha2, hga2⟩ := ih hbs c hc
      exact ⟨a2, List.mem_cons_of_mem a ha2, hga2⟩

theorem exMap_pure {g : α → Except Err β} {f : α → β} :
    ∀ {l : List α}, (∀ a ∈ l, g a = .ok (f a)) → exMap g l = .ok (l.map f) := by
  intro l
  induction l with
  | nil => intro _; rfl
  | cons a as ih =>
    intro h
    rw [exMap_cons, h a (List.mem_cons_self a as), ok_bind,
      ih (fun x hx => h x (List.mem_cons_of_mem a hx)), ok_bind]
    rfl

theorem zip_map_fst_snd : ∀ (l : List (α × β)), (l.map Prod.fst).zip (l.map Prod.snd) = l := by
  intro l
  induction l with
  | nil => rfl
  | cons p ps ih => simp [List.zip_cons_cons, ih]

theorem argmaxFrom_lt :
    ∀ (ds : List ℚ) (best : ℚ) (bi i : ℕ), bi < i → argmaxFrom best bi i ds < i + ds.length := by
  intro ds
  induction ds with
  | nil => intro best bi i h; simpa [argmaxFrom] using h
  | cons d ds ih =>
    intro best bi i h
    by_cases hd : best < d
    · have := ih d i (i + 1) (Nat.lt_succ_self i)
      simp only [argmaxFrom, if_pos hd]
      simpa [Nat.add_comm, Nat.add_left_comm, Nat.add_assoc] using this
    · have := ih best bi (i + 1) (Nat.lt_succ_of_lt h)
      simp only [argmaxFrom, if_neg hd]
      simpa [Nat.add_comm, Nat.add_left_comm, Nat.add_assoc] using this

theorem argmaxIdx_lt {l : List ℚ} {j : ℕ} (h : argmaxIdx l = some j) : j < l.length := by
  cases l with
  | nil => cases h
  | cons d ds =>
    have hj : j = argmaxFrom d 0 1 ds := by
      simpa [argmaxIdx] using h.symm
    subst hj
    have h2 := argmaxFrom_lt ds d 0 1 Nat.zero_lt_one
    simp only [List.length_cons]
    omega

theorem eraseIdx_map (f : α → β) :
    ∀ (l : List α) (i : ℕ), (l.eraseIdx i).map f = (l.map f).eraseIdx i := by
  intro l
  induction l with
  | nil => intro i; rfl
  | cons a as ih =>
    intro i
    cases i with
    | zero => rfl
    | succ i => simp [List.eraseIdx_cons_succ, ih]

theorem trimOnce_ok {c : Cluster} (h : c.length ≠ 0) :
    ∃ i, i < c.length ∧ trimOnce c = .ok (c.eraseIdx i) := by
  cases c with
  | nil => simp at h
  | cons p ps =>
    refine ⟨argmaxFrom (|p.2 - clusterAvg (p :: ps)|) 0 1
        (ps.map fun q => |q.2 - clusterAvg (p :: ps)|), ?_, ?_⟩
    · have h2 := argmaxFrom_lt (ps.map fun q => |q.2 - clusterAvg (p :: ps)|)
        (|p.2 - clusterAvg (p :: ps)|) 0 1 Nat.zero_lt_one
      rw [List.length_map] at h2
      simp only [List.length_cons]
      omega
    · simp [trimOnce, argmaxIdx]

theorem trimLoop_ok :
    ∀ (k : ℕ) (c : Cluster), k < c.length →
      ∃ c2, trimLoop k c = .ok c2 ∧ c2.length = c.length - k ∧ c2 ⊆ c := by
  intro k
  induction k with
  | zero => intro c _; exact ⟨c, rfl, by simp, fun _ h => h⟩
  | succ k ih =>
    intro c hk
    have hne : c.length ≠ 0 := by omega
    obtain ⟨i, hi, honce⟩ := trimOnce_ok hne
    have hlen : (c.eraseIdx i).length = c.length - 1 := List.length_eraseIdx_of_lt hi
    obtain ⟨c2, hloop, hlen2, hsub⟩ := ih (c.eraseIdx i) (by omega)
    refine ⟨c2, ?_, by omega, fun x hx => List.eraseIdx_subset c i (hsub hx)⟩
    show Except.bind (trimOnce c) (trimLoop k) = .ok c2
    rw [honce, ok_bind]
    exact hloop

theorem pointsToRemove_lt {n : ℕ} (h : 2 ≤ n) : pointsToRemove n < n := by
  simp only [pointsToRemove]
  omega

theorem trimCluster_ok {c : Cluster} (h : 2 ≤ c.length) :
    ∃ c2, trimCluster c = .ok c2 ∧ c2.length = c.length - pointsToRemove c.length ∧
      1 ≤ c2.length ∧ c2 ⊆ c := by
  obtain ⟨c2, hloop, hlen, hsub⟩ := trimLoop_ok (pointsToRemove c.length) c (pointsToRemove_lt h)
  refine ⟨c2, hloop, hlen, ?_, hsub⟩
  have := pointsToRemove_lt h
  omega

theorem clusterAvg_const {c : Cluster} {r : ℚ} (hne : c ≠ [])
    (h : ∀ x ∈ c, x.2 = r) : clusterAvg c = r := by
  have hmap : c.map Prod.snd = List.replicate c.length r := by
    refine List.eq_replicate.mpr ⟨by simp, ?_⟩
    intro b hb
    obtain ⟨x, hx, rfl⟩ := List.mem_map.mp hb
    exact h x hx
  have hlen : (c.length : ℚ) ≠ 0 := by
    have hpos : 0 < c.length := List.length_pos.mpr hne
    exact_mod_cast Nat.pos_iff_ne_zero.mp hpos
  rw [clusterAvg, hmap, List.sum_replicate, nsmul_eq_mul, mul_div_cancel_left₀ _ hlen]

theorem sum_ball {v eps : ℚ} :
    ∀ {l : List ℚ}, l ≠ [] → (∀ x ∈ l, |x - v| < eps) →
      |l.sum - (l.length : ℚ) * v| < (l.length : ℚ) * eps := by
  intro l
  induction l with
  | nil => intro h; simp at h
  | cons x xs ih =>
    intro _ h
    cases xs with
    | nil => simpa using h x (by simp)
    | cons y ys =>
      have hx := h x (by simp)
      have hxs : |(y :: ys).sum - ((y :: ys).length : ℚ) * v| <
          ((y :: ys).length : ℚ) * eps :=
        ih (by simp) (fun z hz => h z (List.mem_cons_of_mem x hz))
      have hsplit : (x :: y :: ys).sum - ((x :: y :: ys).length : ℚ) * v
          = (x - v) + ((y :: ys).sum - ((y :: ys).length : ℚ) * v) := by
        simp only [List.sum_cons, List.length_cons]
        push_cast
        ring
      rw [hsplit]
      calc |(x - v) + ((y :: ys).sum - ((y :: ys).length : ℚ) * v)|
          ≤ |x - v| + |(y :: ys).sum - ((y :: ys).length : ℚ) * v| := abs_add _ _
        _ < eps + ((y :: ys).length : ℚ) * eps := add_lt_add hx hxs
        _ = ((x :: y :: ys).length : ℚ) * eps := by
            simp only [List.length_cons]
            push_cast
            ring

theorem clusterAvg_ball {c : Cluster} {v eps : ℚ} (hne : c ≠ [])
    (h : ∀ x ∈ c, |x.2 - v| < eps) : |clusterAvg c - v| < eps := by
  have hlenpos : 0 < (c.length : ℚ) := by
    have : 0 < c.length := List.length_pos.mpr hne
    exact_mod_cast this
  have hmapne : c.map Prod.snd ≠ [] := by
    simpa [List.map_eq_nil] using hne
  have hsum := @sum_ball v eps (c.map Prod.snd) hmapne (by
    intro x hx
    obtain ⟨q, hq, rfl⟩ := List.mem_map.mp hx
    exact h q hq)
  rw [List.length_map] at hsum
  have hmul : (clusterAvg c - v) * (c.length : ℚ)
      = (c.map Prod.snd).sum - (c.length : ℚ) * v := by
    rw [clusterAvg, sub_mul, div_mul_cancel₀ _ (ne_of_gt hlenpos)]
    ring
  have habs : |clusterAvg c - v| * (c.length : ℚ)
      = |(c.map Prod.snd).sum - (c.length : ℚ) * v| := by
    calc |clusterAvg c - v| * (c.length : ℚ)
        = |clusterAvg c - v| * |(c.length : ℚ)| := by rw [abs_of_pos hlenpos]
      _ = |(clusterAvg c - v) * (c.length : ℚ)| := (abs_mul _ _).symm
      _ = |(c.map Prod.snd).sum - (c.length : ℚ) * v| := by rw [hmul]
  have hfin : |clusterAvg c - v| * (c.length : ℚ) < eps * (c.length : ℚ) := by
    rw [habs]
    linarith [hsum]
  exact lt_of_mul_lt_mul_right hfin (le_of_lt hlenpos)

theorem clusterStep_concat_nonempty {C : Cluster} (cs : List Cluster) (p : Pt)
    (h : C ≠ []) :
    clusterStep (cs ++ [C]) p =
      if |p.2 - clusterAvg C| < CLUSTER_THRESHOLD * clusterAvg C then cs ++ [C ++ [p]]
      else if C.length < 3 then cs ++ [[p]]
      else (cs ++ [C]) ++ [[p]] := by
  have hlast : (cs ++ [C]).getLast?.getD [] = C := by
    rw [List.getLast?_concat]
    rfl
  have hlen : C.length ≠ 0 := fun h0 => h (List.length_eq_zero.mp h0)
  simp only [clusterStep, hlast, if_neg hlen, List.dropLast_concat]

theorem clusterStep_concat_nil (cs : List Cluster) (p : Pt) :
    clusterStep (cs ++ [[]]) p = cs ++ [[p]] := by
  have hlast : (cs ++ [[]]).getLast?.getD [] = ([] : Cluster) := by
    rw [List.getLast?_concat]
    rfl
  simp [clusterStep, hlast]

theorem clusterStep_init (p : Pt) : clusterStep [[]] p = [[p]] := by
  simpa using clusterStep_concat_nil [] p

/-! ### Claim C1: the concrete two-level memory-sweep scenario -/

/-- C1, counterexample.  On the sweep `{64:10, 128:20, 256:1600, 512:3200,
1024:6400}` at 1 GHz, `get_bandwidth` does **not** return the two values
`[6.4e9, 1.6e8]` claimed by the spec: when the point for 256 bytes arrives,
the `{64,128}` cluster holds only 2 points, so line 38 overwrites it instead
of closing it, and a single bandwidth value is returned. -/
theorem c1_counterexample :
    get_bandwidth [(64, 10), (128, 20), (256, 1600), (512, 3200), (1024, 6400)] 1000000000
        = .ok [160000000] ∧
    get_bandwidth [(64, 10), (128, 20), (256, 1600), (512, 3200), (1024, 6400)] 1000000000
        ≠ .ok [6400000000, 160000000] := by
  have h :
      get_bandwidth [(64, 10), (128, 20), (256, 1600), (512, 3200), (1024, 6400)] 1000000000
        = .ok [160000000] := by
    norm_num [get_bandwidth, computeRates, exMap, rateOf, clusterStep, clusterAvg,
      CLUSTER_THRESHOLD, trimCluster, trimLoop, trimOnce, argmaxIdx, argmaxFrom,
      pointsToRemove, levelOf, List.foldl, Except.bind, bind, pure, Except.pure,
      List.zip, List.zipWith]
  refine ⟨h, ?_⟩
  intro hc
  rw [h] at hc
  simp only [Except.ok.injEq, List.cons.injEq] at hc
  exact absurd hc.1 (by norm_num)

/-- C1, amended.  On the sweep `{64:10, 128:20, 256:1600, 512:3200, 1024:6400}`
at 1 GHz the rates are `[6.4e9, 6.4e9, 1.6e8, 1.6e8, 1.6e8]`; the two-point
`{64,128}` cluster is discarded (fewer than 3 points) when the deviating point
for 256 bytes arrives, `{256,512,1024}` forms the only cluster, trimming
removes one of its three equal points, and `get_bandwidth` returns exactly one
bandwidth value, `[1.6e8]`. -/
theorem c1_amended :
    get_bandwidth [(64, 10), (128, 20), (256, 1600), (512, 3200), (1024, 6400)] 1000000000
      = .ok [160000000] := by
  norm_num [get_bandwidth, computeRates, exMap, rateOf, clusterStep, clusterAvg,
    CLUSTER_THRESHOLD, trimCluster, trimLoop, trimOnce, argmaxIdx, argmaxFrom,
    pointsToRemove, levelOf, List.foldl, Except.bind, bind, pure, Except.pure,
    List.zip, List.zipWith]

/-! ### Claim C5: clusters of size 1 reaching the trimming pass -/

/-- C5, code behavior at the failing input.  A cluster of size 1 reaching the
outlier-trimming pass does **not** keep its sole point: line 45 computes
`max(1, min(0, 0)) = 1` point to remove, trimming empties the cluster, and the
reduction at line 57 then divides by zero.  Concretely, the one-point sweep
`{64:10}` at 1 GHz produces the size-1 cluster `[(64, 6.4e9)]`, whose trim
yields the empty cluster, and `get_bandwidth` fails with a
`ZeroDivisionError` instead of returning an average over at least one point. -/
theorem c5_code_behavior :
    trimCluster [((64 : ℤ), (6400000000 : ℚ))] = .ok [] ∧
    get_bandwidth [(64, 10)] 1000000000 = .error .zeroDivisionError := by
  constructor
  · norm_num [trimCluster, trimLoop, trimOnce, argmaxIdx, argmaxFrom, clusterAvg,
      pointsToRemove, Except.bind, bind, pure, Except.pure]
  · norm_num [get_bandwidth, computeRates, exMap, rateOf, clusterStep, clusterAvg,
      CLUSTER_THRESHOLD, trimCluster, trimLoop, trimOnce, argmaxIdx, argmaxFrom,
      pointsToRemove, levelOf, List.foldl, Except.bind, bind, pure, Except.pure,
      List.zip, List.zipWith]

/-! ### Claim C8: behavior on empty sweeps -/

/-- C8, counterexample.  On an empty sweep both extractors do fail, but not
with the descriptive `InvalidInput` error of the spec's taxonomy: there is no
input validation at all.  `get_bandwidth` reaches the trimming pass with the
single empty initial cluster and raises `ZeroDivisionError` while computing
its average (line 47), and `get_peak_performance` raises `ValueError` from
`max([])` (line 95). -/
theorem c8_counterexample :
    get_bandwidth [] 1000000000 = .error .zeroDivisionError ∧
    get_peak_performance [] 1000000000 = .error .valueError ∧
    Err.zeroDivisionError ≠ Err.invalidInput ∧
    Err.valueError ≠ Err.invalidInput := by
  refine ⟨?_, ?_, by decide, by decide⟩
  · norm_num [get_bandwidth, computeRates, exMap, rateOf, clusterStep, clusterAvg,
      CLUSTER_THRESHOLD, trimCluster, trimLoop, trimOnce, argmaxIdx, argmaxFrom,
      pointsToRemove, levelOf, List.foldl, Except.bind, bind, pure, Except.pure,
      List.zip, List.zipWith]
  · norm_num [get_peak_performance, computeRates, exMap, rateOf, Except.bind, bind,
      pure, Except.pure, List.zip, List.zipWith]

/-- C8, amended.  For an empty sweep each extractor fails with an uncaught
runtime exception rather than returning a value: `get_bandwidth` with a
`ZeroDivisionError` (averaging the empty initial cluster during trimming) and
`get_peak_performance` with a `ValueError` (`max` of an empty sequence).
Neither is a dedicated, descriptive `InvalidInput` validation error. -/
theorem c8_amended :
    ∀ frequency_hz : ℤ,
      get_bandwidth [] frequency_hz = .error .zeroDivisionError ∧
      get_peak_performance [] frequency_hz = .error .valueError := by
  intro f
  constructor
  · norm_num [get_bandwidth, computeRates, exMap, rateOf, clusterStep, clusterAvg,
      CLUSTER_THRESHOLD, trimCluster, trimLoop, trimOnce, argmaxIdx, argmaxFrom,
      pointsToRemove, levelOf, List.foldl, Except.bind, bind, pure, Except.pure,
      List.zip, List.zipWith]
  · norm_num [get_peak_performance, computeRates, exMap, rateOf, Except.bind, bind,
      pure, Except.pure, List.zip, List.zipWith]

/-! ### Unfolding lemmas for the two extractors -/

theorem computeRates_eq (s : List (ℤ × ℤ)) (f : ℤ) :
    computeRates s f = exMap (rateOf f) s := by
  rw [computeRates, zip_map_fst_snd]

theorem get_bandwidth_eq_of_rates {s : List (ℤ × ℤ)} {f : ℤ} {rs : List ℚ}
    (h : computeRates s f = .ok rs) :
    get_bandwidth s f =
      Except.bind (exMap trimCluster (((s.map Prod.fst).zip rs).foldl clusterStep [[]]))
        (fun trimmed => exMap levelOf trimmed) := by
  have h1 : get_bandwidth s f =
      Except.bind (computeRates s f)
        (fun bandwidth =>
          Except.bind
            (exMap trimCluster (((s.map Prod.fst).zip bandwidth).foldl clusterStep [[]]))
            (fun trimmed => exMap levelOf trimmed)) := rfl
  rw [h1, h, ok_bind]

theorem get_bandwidth_ok_inv {s : List (ℤ × ℤ)} {f : ℤ} {l : List ℚ}
    (h : get_bandwidth s f = .ok l) :
    ∃ rs trimmed, computeRates s f = .ok rs ∧
      exMap trimCluster (((s.map Prod.fst).zip rs).foldl clusterStep [[]]) = .ok trimmed ∧
      exMap levelOf trimmed = .ok l := by
  have h1 : Except.bind (computeRates s f)
      (fun bandwidth =>
        Except.bind
          (exMap trimCluster (((s.map Prod.fst).zip bandwidth).foldl clusterStep [[]]))
          (fun trimmed => exMap levelOf trimmed)) = .ok l := h
  obtain ⟨rs, hrs, h2⟩ := exceptBind_ok h1
  obtain ⟨trimmed, htr, h3⟩ := exceptBind_ok h2
  exact ⟨rs, trimmed, hrs, htr, h3⟩

theorem levelOf_ok_inv {c : Cluster} {b : ℚ} (h : levelOf c = .ok b) :
    c.length ≠ 0 ∧ b = clusterAvg c := by
  by_cases h0 : c.length = 0
  · rw [levelOf, if_pos h0] at h
    cases h
  · rw [levelOf, if_neg h0] at h
    exact ⟨h0, (Except.ok.inj h).symm⟩

theorem get_peak_eq_of_rates {s : List (ℤ × ℤ)} {f : ℤ} {rs : List ℚ}
    (h : computeRates s f = .ok rs) :
    get_peak_performance s f =
      match rs.max? with
      | none => .error .valueError
      | some m => .ok m := by
  have h1 : get_peak_performance s f =
      Except.bind (computeRates s f)
        (fun performance =>
          match performance.max? with
          | none => .error .valueError
          | some m => .ok m) := rfl
  rw [h1, h, ok_bind]

/-! ### Claim C4: trimming never empties a cluster of 2 or more points -/

/-- C4.  First conjunct: the outlier-trimming pass applied to any cluster with
at least 2 points succeeds and leaves at least 1 point (line 45 removes
`max(1, min(n/2, n-1)) ≤ n-1` points).  Second conjunct: whenever
`get_bandwidth` returns a list, every returned bandwidth is the arithmetic
mean (`clusterAvg`) of a trimmed cluster that still has at least 1 point —
never an average over zero points. -/
theorem c4_trim_invariant :
    (∀ c : Cluster, 2 ≤ c.length → ∃ c2, trimCluster c = .ok c2 ∧ 1 ≤ c2.length) ∧
    (∀ (s : List (ℤ × ℤ)) (f : ℤ) (l : List ℚ), get_bandwidth s f = .ok l →
      ∀ b ∈ l, ∃ c0 c : Cluster, trimCluster c0 = .ok c ∧ 1 ≤ c.length ∧
        b = clusterAvg c) := by
  constructor
  · intro c h
    obtain ⟨c2, htrim, _, hge, _⟩ := trimCluster_ok h
    exact ⟨c2, htrim, hge⟩
  · intro s f l h b hb
    obtain ⟨rs, trimmed, _, htr, hlev⟩ := get_bandwidth_ok_inv h
    obtain ⟨c, hc, hlevel⟩ := exMap_ok_mem hlev b hb
    obtain ⟨hne, havg⟩ := levelOf_ok_inv hlevel
    obtain ⟨c0, _, htrim⟩ := exMap_ok_mem htr c hc
    exact ⟨c0, c, htrim, by omega, havg⟩

/-- C4, witness: the first conjunct applied to a concrete 2-point cluster. -/
theorem c4_witness :
    ∃ c2, trimCluster [((64 : ℤ), (1 : ℚ)), ((128 : ℤ), (1 : ℚ))] = .ok c2 ∧
      1 ≤ c2.length :=
  c4_trim_invariant.1 _ (by norm_num)

/-! ### Claim C6: small deviant clusters are discarded -/

/-- C6.  Whenever the clustering scan meets a point `p` whose bandwidth
deviates from the running average of the current cluster `C` by at least
`CLUSTER_THRESHOLD` times that average while `C` has fewer than 3 points,
line 38 replaces `C` by `[p]`: the rest of the scan proceeds exactly as if
`C` had never existed, so none of `C`'s points can reach the trimming or
reduction passes, and no such short deviant run is ever reported as a
standalone level. -/
theorem c6_small_deviant_discarded :
    ∀ (cs : List Cluster) (C : Cluster) (p : Pt) (rest : List Pt),
      C ≠ [] → C.length < 3 →
      ¬(|p.2 - clusterAvg C| < CLUSTER_THRESHOLD * clusterAvg C) →
      List.foldl clusterStep (cs ++ [C]) (p :: rest)
        = List.foldl clusterStep (cs ++ [[p]]) rest := by
  intro cs C p rest hne hlen hdev
  rw [List.foldl_cons, clusterStep_concat_nonempty cs p hne, if_neg hdev, if_pos hlen]

/-- C6, witness: the two-point cluster `{64, 128}` of the C1 scenario is
discarded when the deviating point for 256 bytes arrives. -/
theorem c6_witness :
    List.foldl clusterStep [[((64 : ℤ), (6400000000 : ℚ)), ((128 : ℤ), (6400000000 : ℚ))]]
        [((256 : ℤ), (160000000 : ℚ))]
      = List.foldl clusterStep [[((256 : ℤ), (160000000 : ℚ))]] [] := by
  have h := c6_small_deviant_discarded []
    [((64 : ℤ), (6400000000 : ℚ)), ((128 : ℤ), (6400000000 : ℚ))]
    ((256 : ℤ), (160000000 : ℚ)) [] (by simp) (by norm_num)
    (by norm_num [clusterAvg, CLUSTER_THRESHOLD])
  simpa using h

/-! ### Claim C2: sweeps whose rates all lie near one common value -/

/-- C2, counterexample.  In the sweep
`{161:2, 322:4, 644:8, 119:1, 238:2, 476:4}` at frequency 1 Hz every computed
rate (`80.5` three times, then `119` three times) lies strictly within 20% of
the single common value `100`, yet `get_bandwidth` returns **two** bandwidth
values: the closeness test compares each point against the running cluster
average (`80.5`), not against a common central value, so `119` opens a second
cluster, which then grows to 3 points and survives. -/
theorem c2_counterexample :
    |(161 : ℚ)/2 - 100| < (1/5) * 100 ∧ |(119 : ℚ) - 100| < (1/5) * 100 ∧
    computeRates [(161, 2), (322, 4), (644, 8), (119, 1), (238, 2), (476, 4)] 1
      = .ok [161/2, 161/2, 161/2, 119, 119, 119] ∧
    get_bandwidth [(161, 2), (322, 4), (644, 8), (119, 1), (238, 2), (476, 4)] 1
      = .ok [161/2, 119] := by
  refine ⟨by rw [abs_lt]; norm_num, by rw [abs_lt]; norm_num, ?_, ?_⟩
  · norm_num [computeRates, exMap, rateOf, Except.bind, bind, pure, Except.pure,
      List.zip, List.zipWith]
  · norm_num [get_bandwidth, computeRates, exMap, rateOf, clusterStep, clusterAvg,
      CLUSTER_THRESHOLD, trimCluster, trimLoop, trimOnce, argmaxIdx, argmaxFrom,
      pointsToRemove, levelOf, List.foldl, Except.bind, bind, pure, Except.pure,
      List.zip, List.zipWith, abs_of_nonneg, abs_of_nonpos]

theorem fold_single_ball :
    ∀ (pts : List Pt) (c : Cluster) (v : ℚ), 0 < v → c ≠ [] →
      (∀ x ∈ c, |x.2 - v| < v / 11) → (∀ q ∈ pts, |q.2 - v| < v / 11) →
      List.foldl clusterStep [c] pts = [c ++ pts] := by
  intro pts
  induction pts with
  | nil => intro c v _ _ _ _; simp
  | cons q rest ih =>
    intro c v hv hne hc hq
    have havg : |clusterAvg c - v| < v / 11 := clusterAvg_ball hne hc
    have hqv : |q.2 - v| < v / 11 := hq q (List.mem_cons_self q rest)
    have hjoin : |q.2 - clusterAvg c| < CLUSTER_THRESHOLD * clusterAvg c := by
      have htri : |q.2 - clusterAvg c| ≤ |q.2 - v| + |v - clusterAvg c| :=
        abs_sub_le q.2 v (clusterAvg c)
      have hcomm : |v - clusterAvg c| = |clusterAvg c - v| := abs_sub_comm v (clusterAvg c)
      obtain ⟨hb1, hb2⟩ := abs_lt.mp havg
      rw [CLUSTER_THRESHOLD]
      linarith
    have hstep : clusterStep [c] q = [c ++ [q]] := by
      have h2 := clusterStep_concat_nonempty ([] : List Cluster) q hne
      rw [if_pos hjoin] at h2
      simpa using h2
    rw [List.foldl_cons, hstep]
    have h3 := ih (c ++ [q]) v hv (by simp)
      (by
        intro x hx
        rcases List.mem_append.mp hx with hx | hx
        · exact hc x hx
        · rcases List.mem_singleton.mp hx with rfl
          exact hqv)
      (fun p hp => hq p (List.mem_cons_of_mem q hp))
    rw [h3]
    simp

/-- C2, amended.  The closeness test of line 33 compares against the running
cluster mean, so "within 20% of a single common value" does not keep the scan
in one cluster; strictly within `1/11` (≈ 9.09%) of a single common positive
value does, because then every point stays within the 20% band around every
possible cluster mean.  In addition the sweep must have at least 2 points,
since a single-point sweep makes trimming empty its cluster and the run fails
(see C5).  Under these conditions `get_bandwidth` returns exactly one
bandwidth value. -/
theorem c2_amended :
    ∀ (s : List (ℤ × ℤ)) (f : ℤ) (rs : List ℚ) (v : ℚ),
      computeRates s f = .ok rs → 2 ≤ rs.length → 0 < v →
      (∀ r ∈ rs, |r - v| < v / 11) →
      ∃ b, get_bandwidth s f = .ok [b] := by
  intro s f rs v hrs hlen hv hball
  have hrs2 : exMap (rateOf f) s = .ok rs := by
    rw [computeRates_eq] at hrs
    exact hrs
  have hlen_s : rs.length = s.length := exMap_ok_length hrs2
  have hmaplen : rs.length ≤ (s.map Prod.fst).length := by
    rw [List.length_map]
    omega
  have hsnd : ((s.map Prod.fst).zip rs).map Prod.snd = rs :=
    List.map_snd_zip _ _ hmaplen
  have hptslen : ((s.map Prod.fst).zip rs).length = rs.length := by
    rw [List.length_zip, List.length_map]
    omega
  have hballp : ∀ q ∈ (s.map Prod.fst).zip rs, |q.2 - v| < v / 11 := by
    intro q hq
    apply hball
    rw [← hsnd]
    exact List.mem_map_of_mem Prod.snd hq
  obtain ⟨p, rest, hcons⟩ :
      ∃ p rest, (s.map Prod.fst).zip rs = p :: rest := by
    cases hpts : (s.map Prod.fst).zip rs with
    | nil => rw [hpts] at hptslen; simp at hptslen; omega
    | cons p rest => exact ⟨p, rest, rfl⟩
  have hfold : ((s.map Prod.fst).zip rs).foldl clusterStep [[]]
      = [(s.map Prod.fst).zip rs] := by
    rw [hcons, List.foldl_cons, clusterStep_init]
    have h3 := fold_single_ball rest [p] v hv (by simp)
      (by
        intro x hx
        rcases List.mem_singleton.mp hx with rfl
        exact hballp x (hcons ▸ List.mem_cons_self x rest))
      (fun q hq => hballp q (hcons ▸ List.mem_cons_of_mem p hq))
    rw [h3]
    simp
  have h2 : 2 ≤ ((s.map Prod.fst).zip rs).length := by omega
  obtain ⟨c2, htrim, hlen2, hge1, _⟩ := trimCluster_ok h2
  have hexmap : exMap trimCluster [(s.map Prod.fst).zip rs] = .ok [c2] := by
    rw [show ([(s.map Prod.fst).zip rs] : List Cluster)
        = ((s.map Prod.fst).zip rs) :: [] from rfl]
    rw [exMap_cons, htrim, ok_bind, exMap_nil, ok_bind]
  have hl : levelOf c2 = .ok (clusterAvg c2) := by
    rw [levelOf, if_neg (by omega)]
  have hlevel : exMap levelOf [c2] = .ok [clusterAvg c2] := by
    rw [show ([c2] : List Cluster) = c2 :: [] from rfl]
    rw [exMap_cons, hl, ok_bind, exMap_nil, ok_bind]
  refine ⟨clusterAvg c2, ?_⟩
  rw [get_bandwidth_eq_of_rates hrs, hfold, hexmap, ok_bind, hlevel]

/-- C2, witness for the amended claim: the 2-point sweep `{10:1, 11:1}` at
frequency 1 Hz has rates `[10, 11]`, all strictly within `1/11` of the common
value `21/2`, and `get_bandwidth` returns exactly one value. -/
theorem c2_witness :
    ∃ b, get_bandwidth [(10, 1), (11, 1)] 1 = .ok [b] :=
  c2_amended [(10, 1), (11, 1)] 1 [10, 11] (21/2)
    (by norm_num [computeRates, exMap, rateOf, Except.bind, bind, pure, Except.pure,
      List.zip, List.zipWith])
    (by norm_num) (by norm_num)
    (by
      intro r hr
      rcases List.mem_cons.mp hr with rfl | hr
      · rw [abs_lt]
        norm_num
      rcases List.mem_cons.mp hr with rfl | hr
      · rw [abs_lt]
        norm_num
      cases hr)

/-! ### Claim C3: well-separated plateaus of at least 3 points each -/

theorem fold_plateau_extend :
    ∀ (pts : List Pt) (cs : List Cluster) (c : Cluster) (r : ℚ),
      0 < r → c ≠ [] → (∀ x ∈ c, x.2 = r) → (∀ q ∈ pts, q.2 = r) →
      List.foldl clusterStep (cs ++ [c]) pts = cs ++ [c ++ pts] := by
  intro pts
  induction pts with
  | nil => intro cs c r _ _ _ _; simp
  | cons q rest ih =>
    intro cs c r hr hne hc hq
    have havg : clusterAvg c = r := clusterAvg_const hne hc
    have hq2 : q.2 = r := hq q (List.mem_cons_self q rest)
    have hjoin : |q.2 - clusterAvg c| < CLUSTER_THRESHOLD * clusterAvg c := by
      rw [havg, hq2, sub_self, abs_zero, CLUSTER_THRESHOLD]
      linarith
    rw [List.foldl_cons, clusterStep_concat_nonempty cs q hne, if_pos hjoin]
    have h3 := ih cs (c ++ [q]) r hr (by simp)
      (by
        intro x hx
        rcases List.mem_append.mp hx with hx | hx
        · exact hc x hx
        · rcases List.mem_singleton.mp hx with rfl
          exact hq2)
      (fun p hp => hq p (List.mem_cons_of_mem q hp))
    rw [h3]
    simp

theorem fold_plateaus :
    ∀ (ps : List (ℚ × ℕ)) (pts : List Pt) (cs : List Cluster) (c : Cluster) (r : ℚ),
      0 < r → 3 ≤ c.length → (∀ x ∈ c, x.2 = r) →
      (∀ q ∈ ps, 0 < q.1 ∧ 3 ≤ q.2) →
      List.Chain (fun a b => CLUSTER_THRESHOLD * a < |b - a|) r (ps.map Prod.fst) →
      pts.map Prod.snd = plateauRates ps →
      ∃ cls, List.foldl clusterStep (cs ++ [c]) pts = (cs ++ [c]) ++ cls ∧
        List.Forall₂ (fun (cl : Cluster) (q : ℚ × ℕ) =>
          cl.length = q.2 ∧ ∀ x ∈ cl, x.2 = q.1) cls ps := by
  intro ps
  induction ps with
  | nil =>
    intro pts cs c r _ _ _ _ _ hpts
    have : pts = [] := by
      simpa [plateauRates, List.map_eq_nil_iff] using hpts
    subst this
    exact ⟨[], by simp, List.Forall₂.nil⟩
  | cons hd tl ih =>
    intro pts cs c r hr h3 hc hps hchain hpts
    obtain ⟨r2, n2⟩ := hd
    have hsplit : pts.map Prod.snd = List.replicate n2 r2 ++ plateauRates tl := by
      simpa [plateauRates] using hpts
    obtain ⟨pts1, pts2, rfl, hmap1, hmap2⟩ := List.map_eq_append_iff.mp hsplit
    have hlen1 : pts1.length = n2 := by
      have := congrArg List.length hmap1
      simpa using this
    have hd_cond : 0 < r2 ∧ 3 ≤ n2 := hps (r2, n2) (List.mem_cons_self _ tl)
    have hmem1 : ∀ x ∈ pts1, x.2 = r2 := by
      intro x hx
      have : x.2 ∈ List.replicate n2 r2 := hmap1 ▸ List.mem_map_of_mem Prod.snd hx
      exact List.eq_of_mem_replicate this
    obtain ⟨q, pts1', rfl⟩ : ∃ q pts1', pts1 = q :: pts1' := by
      cases pts1 with
      | nil => simp at hlen1; omega
      | cons q pts1' => exact ⟨q, pts1', rfl⟩
    have hchain2 : CLUSTER_THRESHOLD * r < |r2 - r| ∧
        List.Chain (fun a b => CLUSTER_THRESHOLD * a < |b - a|) r2 (tl.map Prod.fst) := by
      have h := hchain
      rw [List.map_cons, List.chain_cons] at h
      exact h
    have hq2 : q.2 = r2 := hmem1 q (List.mem_cons_self q pts1')
    have hcne : c ≠ [] := by
      intro h0
      rw [h0] at h3
      simp at h3
    have havg : clusterAvg c = r := clusterAvg_const hcne hc
    have hnojoin : ¬(|q.2 - clusterAvg c| < CLUSTER_THRESHOLD * clusterAvg c) := by
      rw [havg, hq2]
      exact not_lt.mpr (le_of_lt hchain2.1)
    have hstep : clusterStep (cs ++ [c]) q = (cs ++ [c]) ++ [[q]] := by
      rw [clusterStep_concat_nonempty cs q hcne, if_neg hnojoin, if_neg (by omega)]
    have hext := fold_plateau_extend pts1' (cs ++ [c]) [q] r2 hd_cond.1 (by simp)
      (by
        intro x hx
        rcases List.mem_singleton.mp hx with rfl
        exact hq2)
      (fun p hp => hmem1 p (List.mem_cons_of_mem q hp))
    have hih := ih pts2 (cs ++ [c]) (q :: pts1') r2 hd_cond.1
      (by rw [hlen1]; exact hd_cond.2)
      hmem1
      (fun p hp => hps p (List.mem_cons_of_mem _ hp))
      hchain2.2
      hmap2
    obtain ⟨cls, hfold2, hrel⟩ := hih
    refine ⟨(q :: pts1') :: cls, ?_, List.Forall₂.cons ⟨hlen1, hmem1⟩ hrel⟩
    rw [List.foldl_append, List.foldl_cons, hstep, hext]
    simp only [List.singleton_append]
    rw [hfold2]
    simp

theorem trim_level_const {cl : Cluster} {r : ℚ} (h3 : 3 ≤ cl.length)
    (hmem : ∀ x ∈ cl, x.2 = r) :
    ∃ cl2, trimCluster cl = .ok cl2 ∧ levelOf cl2 = .ok r := by
  obtain ⟨cl2, htrim, _, hge, hsub⟩ := trimCluster_ok (c := cl) (by omega)
  refine ⟨cl2, htrim, ?_⟩
  have hne2 : cl2 ≠ [] := by
    intro h0
    rw [h0] at hge
    simp at hge
  rw [levelOf, if_neg (by omega), clusterAvg_const hne2 (fun x hx => hmem x (hsub hx))]

theorem exMap_trim_level :
    ∀ {cls : List Cluster} {ps : List (ℚ × ℕ)},
      List.Forall₂ (fun (cl : Cluster) (q : ℚ × ℕ) =>
        cl.length = q.2 ∧ ∀ x ∈ cl, x.2 = q.1) cls ps →
      (∀ q ∈ ps, 3 ≤ q.2) →
      ∃ out, exMap trimCluster cls = .ok out ∧
        exMap levelOf out = .ok (ps.map Prod.fst) := by
  intro cls ps h
  induction h with
  | nil => exact fun _ => ⟨[], rfl, rfl⟩
  | @cons cl q cls2 ps2 hP htl ih =>
    intro hps
    have h3 : 3 ≤ cl.length := hP.1 ▸ hps q (List.mem_cons_self q ps2)
    obtain ⟨cl2, htrim, hlev⟩ := trim_level_const h3 hP.2
    obtain ⟨out, htr2, hlev2⟩ := ih (fun p hp => hps p (List.mem_cons_of_mem q hp))
    refine ⟨cl2 :: out, ?_, ?_⟩
    · rw [exMap_cons, htrim, ok_bind, htr2, ok_bind]
    · rw [exMap_cons, hlev, ok_bind, hlev2, ok_bind]
      rfl

/-- C3.  For every memory sweep whose computed rate sequence consists of `k`
constant-rate plateaus, each plateau having at least 3 points and a positive
rate, with each plateau's rate differing from the previous plateau's rate by
more than 20% of the latter, `get_bandwidth` returns exactly `k` bandwidth
values — the plateau rates, one per plateau, in input order. -/
theorem c3_plateaus :
    ∀ (s : List (ℤ × ℤ)) (f : ℤ) (ps : List (ℚ × ℕ)),
      ps ≠ [] →
      (∀ q ∈ ps, 0 < q.1 ∧ 3 ≤ q.2) →
      List.Chain' (fun a b => CLUSTER_THRESHOLD * a.1 < |b.1 - a.1|) ps →
      computeRates s f = .ok (plateauRates ps) →
      get_bandwidth s f = .ok (ps.map Prod.fst) := by
  intro s f ps hne hps hchain hrs
  have hrs2 : exMap (rateOf f) s = .ok (plateauRates ps) := by
    rw [computeRates_eq] at hrs
    exact hrs
  have hlen_s : (plateauRates ps).length = s.length := exMap_ok_length hrs2
  have hmaplen : (plateauRates ps).length ≤ (s.map Prod.fst).length := by
    rw [List.length_map]
    omega
  have hsnd : ((s.map Prod.fst).zip (plateauRates ps)).map Prod.snd = plateauRates ps :=
    List.map_snd_zip _ _ hmaplen
  obtain ⟨⟨r1, n1⟩, tl, rfl⟩ : ∃ hd tl, ps = hd :: tl := by
    cases ps with
    | nil => exact absurd rfl hne
    | cons hd tl => exact ⟨hd, tl, rfl⟩
  have hsplit : ((s.map Prod.fst).zip (plateauRates ((r1, n1) :: tl))).map Prod.snd
      = List.replicate n1 r1 ++ plateauRates tl := by
    rw [hsnd]
    simp [plateauRates]
  obtain ⟨pts1, pts2, hpts, hmap1, hmap2⟩ := List.map_eq_append_iff.mp hsplit
  have hlen1 : pts1.length = n1 := by
    have := congrArg List.length hmap1
    simpa using this
  have hd_cond : 0 < r1 ∧ 3 ≤ n1 := hps (r1, n1) (List.mem_cons_self _ tl)
  have hmem1 : ∀ x ∈ pts1, x.2 = r1 := by
    intro x hx
    have : x.2 ∈ List.replicate n1 r1 := hmap1 ▸ List.mem_map_of_mem Prod.snd hx
    exact List.eq_of_mem_replicate this
  obtain ⟨q, pts1', rfl⟩ : ∃ q pts1', pts1 = q :: pts1' := by
    cases pts1 with
    | nil => simp at hlen1; omega
    | cons q pts1' => exact ⟨q, pts1', rfl⟩
  have hq2 : q.2 = r1 := hmem1 q (List.mem_cons_self q pts1')
  have hext := fold_plateau_extend pts1' [] [q] r1 hd_cond.1 (by simp)
    (by
      intro x hx
      rcases List.mem_singleton.mp hx with rfl
      exact hq2)
    (fun p hp => hmem1 p (List.mem_cons_of_mem q hp))
  have hchain2 : List.Chain (fun a b => CLUSTER_THRESHOLD * a < |b - a|) r1
      (tl.map Prod.fst) := by
    have h := (List.chain_map (R := fun a b => CLUSTER_THRESHOLD * a < |b - a|)
      Prod.fst (b := (r1, n1)) (l := tl)).mpr
    exact h (by simpa [List.Chain'] using hchain)
  have hmain := fold_plateaus tl pts2 [] (q :: pts1') r1 hd_cond.1
    (by rw [hlen1]; exact hd_cond.2)
    hmem1
    (fun p hp => hps p (List.mem_cons_of_mem _ hp))
    hchain2
    hmap2
  obtain ⟨cls, hfold2, hrel⟩ := hmain
  have hfold : ((s.map Prod.fst).zip (plateauRates ((r1, n1) :: tl))).foldl clusterStep [[]]
      = (q :: pts1') :: cls := by
    rw [hpts, List.foldl_append, List.foldl_cons, clusterStep_init]
    have hext2 : List.foldl clusterStep [[q]] pts1' = [q :: pts1'] := by
      have := hext
      simpa using this
    rw [hext2]
    simpa using hfold2
  obtain ⟨out, htr, hlev⟩ := exMap_trim_level
    (List.Forall₂.cons (⟨by simpa using hlen1, hmem1⟩ :
      (q :: pts1').length = (r1, n1).2 ∧ ∀ x ∈ (q :: pts1'), x.2 = (r1, n1).1) hrel)
    (fun p hp => (hps p hp).2)
  rw [get_bandwidth_eq_of_rates hrs, hfold, htr, ok_bind, hlev]

/-- C3, witness: two plateaus of 3 points each with rates 10 and 100
(differing by 900% of 10), from the sweep
`{10:1, 20:2, 30:3, 100:1, 200:2, 300:3}` at frequency 1 Hz. -/
theorem c3_witness :
    get_bandwidth [(10, 1), (20, 2), (30, 3), (100, 1), (200, 2), (300, 3)] 1
      = .ok [10, 100] := by
  have h := c3_plateaus [(10, 1), (20, 2), (30, 3), (100, 1), (200, 2), (300, 3)] 1
    [(10, 3), (100, 3)]
    (by simp)
    (by
      intro p hp
      rcases List.mem_cons.mp hp with rfl | hp
      · norm_num
      rcases List.mem_cons.mp hp with rfl | hp
      · norm_num
      cases hp)
    (by
      rw [List.chain'_cons]
      refine ⟨?_, List.chain'_singleton _⟩
      rw [CLUSTER_THRESHOLD]
      rw [show |(100 : ℚ) - 10| = 90 by rw [abs_of_nonneg] <;> norm_num]
      norm_num)
    (by
      norm_num [computeRates, exMap, rateOf, Except.bind, bind, pure, Except.pure,
        List.zip, List.zipWith, plateauRates, List.replicate])
  simpa using h

/-! ### Claim C7: peak performance is the maximum rate, order-independent -/

theorem computeRates_of_nonzero {s : List (ℤ × ℤ)} {f : ℤ}
    (h : ∀ q ∈ s, q.2 ≠ 0) :
    computeRates s f = .ok (s.map (fun q => (f : ℚ) * ((q.1 : ℚ) / (q.2 : ℚ)))) := by
  rw [computeRates_eq]
  apply exMap_pure
  intro q hq
  rw [rateOf, if_neg (h q hq)]

theorem max?_spec {l : List ℚ} {m : ℚ} (h : l.max? = some m) :
    m ∈ l ∧ ∀ b ∈ l, b ≤ m := by
  refine ⟨List.max?_mem (fun a b => max_choice a b) h, ?_⟩
  exact (List.max?_le_iff (fun a b c => max_le_iff) h).1 (le_refl m)

theorem max?_some_of_ne_nil {l : List ℚ} (h : l ≠ []) : ∃ m, l.max? = some m := by
  cases hm : l.max? with
  | none => exact absurd (List.max?_eq_none_iff.mp hm) h
  | some m => exact ⟨m, rfl⟩

theorem max?_perm {l1 l2 : List ℚ} (h : l1.Perm l2) : l1.max? = l2.max? := by
  by_cases hnil : l1 = []
  · subst hnil
    rw [List.Perm.eq_nil h.symm]
  · have hnil2 : l2 ≠ [] := fun h0 => hnil (List.Perm.eq_nil (h0 ▸ h))
    obtain ⟨m1, hm1⟩ := max?_some_of_ne_nil hnil
    obtain ⟨m2, hm2⟩ := max?_some_of_ne_nil hnil2
    obtain ⟨hmem1, hub1⟩ := max?_spec hm1
    obtain ⟨hmem2, hub2⟩ := max?_spec hm2
    rw [hm1, hm2]
    exact congrArg some (le_antisymm (hub2 m1 (h.mem_iff.mp hmem1))
      (hub1 m2 (h.mem_iff.mpr hmem2)))

/-- C7.  With positive cycle counts and a non-empty arithmetic sweep,
`get_peak_performance` returns the maximum of the computed rates
`frequency_hz * (ops / cycles)`, and its result is invariant under any
permutation of the input points; concretely, `{100:50, 200:90, 400:100}` at
1 GHz yields 4e9. -/
theorem c7_peak_max :
    (∀ (s t : List (ℤ × ℤ)) (f : ℤ), s ≠ [] → (∀ q ∈ s, 0 < q.2) →
      (∃ m, get_peak_performance s f = .ok m ∧
        m ∈ s.map (fun q => (f : ℚ) * ((q.1 : ℚ) / (q.2 : ℚ))) ∧
        ∀ r ∈ s.map (fun q => (f : ℚ) * ((q.1 : ℚ) / (q.2 : ℚ))), r ≤ m) ∧
      (t.Perm s → get_peak_performance t f = get_peak_performance s f)) ∧
    get_peak_performance [(100, 50), (200, 90), (400, 100)] 1000000000
      = .ok 4000000000 := by
  constructor
  · intro s t f hne hpos
    have hnz : ∀ q ∈ s, q.2 ≠ 0 := fun q hq => ne_of_gt (hpos q hq)
    have hrs := computeRates_of_nonzero (f := f) hnz
    have hmapne : s.map (fun q => (f : ℚ) * ((q.1 : ℚ) / (q.2 : ℚ))) ≠ [] := by
      simpa [List.map_eq_nil_iff] using hne
    obtain ⟨m, hm⟩ := max?_some_of_ne_nil hmapne
    obtain ⟨hmem, hub⟩ := max?_spec hm
    constructor
    · refine ⟨m, ?_, hmem, hub⟩
      rw [get_peak_eq_of_rates hrs, hm]
    · intro hperm
      have hnzt : ∀ q ∈ t, q.2 ≠ 0 := fun q hq => hnz q (hperm.subset hq)
      have hrst := computeRates_of_nonzero (f := f) hnzt
      have hpm : (t.map (fun q => (f : ℚ) * ((q.1 : ℚ) / (q.2 : ℚ)))).max?
          = (s.map (fun q => (f : ℚ) * ((q.1 : ℚ) / (q.2 : ℚ)))).max? :=
        max?_perm (hperm.map _)
      rw [get_peak_eq_of_rates hrst, get_peak_eq_of_rates hrs, hpm]
  · norm_num [get_peak_performance, computeRates, exMap, rateOf, Except.bind, bind,
      pure, Except.pure, List.zip, List.zipWith, List.max?, List.foldl, max_def]

/-- C7, witness: the universal part applied to the concrete arithmetic sweep
`{100:50, 200:90, 400:100}` at 1 GHz and one of its permutations. -/
theorem c7_witness :
    (∃ m, get_peak_performance [(100, 50), (200, 90), (400, 100)] 1000000000 = .ok m ∧
      m ∈ [((100 : ℤ), (50 : ℤ)), (200, 90), (400, 100)].map
        (fun q => ((1000000000 : ℤ) : ℚ) * ((q.1 : ℚ) / (q.2 : ℚ))) ∧
      ∀ r ∈ [((100 : ℤ), (50 : ℤ)), (200, 90), (400, 100)].map
        (fun q => ((1000000000 : ℤ) : ℚ) * ((q.1 : ℚ) / (q.2 : ℚ))), r ≤ m) ∧
    get_peak_performance [(400, 100), (100, 50), (200, 90)] 1000000000
      = get_peak_performance [(100, 50), (200, 90), (400, 100)] 1000000000 := by
  have h := c7_peak_max.1 [(100, 50), (200, 90), (400, 100)]
    [(400, 100), (100, 50), (200, 90)] 1000000000 (by simp)
    (by
      intro q hq
      rcases List.mem_cons.mp hq with rfl | hq
      · norm_num
      rcases List.mem_cons.mp hq with rfl | hq
      · norm_num
      rcases List.mem_cons.mp hq with rfl | hq
      · norm_num
      cases hq)
  refine ⟨h.1, h.2 ?_⟩
  have hperm : ([((400 : ℤ), (100 : ℤ))] ++ [(100, 50), (200, 90)]).Perm
      ([((100 : ℤ), (50 : ℤ)), (200, 90)] ++ [(400, 100)]) := List.perm_append_comm
  exact hperm

/-! ### Claim C9: non-positive cycle counts are not validated -/

theorem computeRates_zero {s : List (ℤ × ℤ)} (f : ℤ) (b : ℤ)
    (hmem : (b, (0 : ℤ)) ∈ s) :
    computeRates s f = .error .zeroDivisionError := by
  rw [computeRates_eq]
  induction s with
  | nil => cases hmem
  | cons q rest ih =>
    rw [exMap_cons]
    by_cases hq2 : q.2 = 0
    · rw [rateOf, if_pos hq2, error_bind]
    · have hmem2 : (b, (0 : ℤ)) ∈ rest := by
        rcases List.mem_cons.mp hmem with heq | hmem2
        · exact absurd (congrArg Prod.snd heq.symm) hq2
        · exact hmem2
      rw [rateOf, if_neg hq2, ok_bind, ih hmem2, error_bind]

/-- C9, counterexample.  The core performs no validation of cycle counts: the
one-point arithmetic sweep `{100: -50}` at 1000 Hz has a negative cycle count,
yet `get_peak_performance` succeeds and returns the rate `-2000` computed from
it — no `InvalidInput` (or any other) error is raised, and a division by a
negative cycle count occurs in a successful run. -/
theorem c9_counterexample :
    get_peak_performance [(100, -50)] 1000 = .ok (-2000) := by
  norm_num [get_peak_performance, computeRates, exMap, rateOf, Except.bind, bind,
    pure, Except.pure, List.zip, List.zipWith, List.max?, List.foldl, max_def]

/-- C9, amended.  The core never validates cycle counts.  A cycle count of
zero anywhere in the sweep makes the rate computation itself fail with an
uncaught `ZeroDivisionError` (not a descriptive `InvalidInput`), in both
extractors; a negative cycle count is silently accepted and produces a
negative rate in a successful run. -/
theorem c9_amended :
    (∀ (s : List (ℤ × ℤ)) (f : ℤ) (b : ℤ), (b, (0 : ℤ)) ∈ s →
      get_peak_performance s f = .error .zeroDivisionError ∧
      get_bandwidth s f = .error .zeroDivisionError) ∧
    get_peak_performance [(100, -50)] 1000 = .ok (-2000) := by
  constructor
  · intro s f b hmem
    have hzero := computeRates_zero (s := s) f b hmem
    constructor
    · have h1 : get_peak_performance s f =
          Except.bind (computeRates s f)
            (fun performance =>
              match performance.max? with
              | none => .error .valueError
              | some m => .ok m) := rfl
      rw [h1, hzero, error_bind]
    · have h2 : get_bandwidth s f =
          Except.bind (computeRates s f)
            (fun bandwidth =>
              Except.bind
                (exMap trimCluster
                  (((s.map Prod.fst).zip bandwidth).foldl clusterStep [[]]))
                (fun trimmed => exMap levelOf trimmed)) := rfl
      rw [h2, hzero, error_bind]
  · norm_num [get_peak_performance, computeRates, exMap, rateOf, Except.bind, bind,
      pure, Except.pure, List.zip, List.zipWith, List.max?, List.foldl, max_def]

/-- C9, witness for the amended claim: a zero cycle count in the one-point
sweep `{5:0}` makes both extractors fail with `ZeroDivisionError`. -/
theorem c9_witness :
    get_peak_performance [(5, 0)] 7 = .error .zeroDivisionError ∧
    get_bandwidth [(5, 0)] 7 = .error .zeroDivisionError :=
  c9_amended.1 [(5, 0)] 7 5 (by simp)

/-! ### Claim C10: the bandwidth list depends only on the rate sequence

The cluster data structure stores `(size, rate)` pairs, but every decision and
every output of `get_bandwidth` reads only the rate component (`p[1]` in the
source); with plotting disabled the sizes are dead data.  The lemmas below
show every pipeline stage is congruent with respect to the projection
`List.map Prod.snd`. -/

theorem clusterStep_def (cs : List Cluster) (p : Pt) :
    clusterStep cs p =
      if (cs.getLast?.getD []).length = 0 then
        cs.dropLast ++ [(cs.getLast?.getD []) ++ [p]]
      else if |p.2 - clusterAvg (cs.getLast?.getD [])|
          < CLUSTER_THRESHOLD * clusterAvg (cs.getLast?.getD []) then
        cs.dropLast ++ [(cs.getLast?.getD []) ++ [p]]
      else if (cs.getLast?.getD []).length < 3 then
        cs.dropLast ++ [[p]]
      else cs ++ [[p]] := rfl

theorem mapsnd_getLastD (cs : List Cluster) :
    (cs.map (List.map Prod.snd)).getLast?.getD [] = (cs.getLast?.getD []).map Prod.snd := by
  rw [List.getLast?_map]
  cases cs.getLast? with
  | none => rfl
  | some c => rfl

theorem clusterStep_congr {cs1 cs2 : List Cluster} {p1 p2 : Pt}
    (hcs : cs1.map (List.map Prod.snd) = cs2.map (List.map Prod.snd))
    (hp : p1.2 = p2.2) :
    (clusterStep cs1 p1).map (List.map Prod.snd)
      = (clusterStep cs2 p2).map (List.map Prod.snd) := by
  have hcur : (cs1.getLast?.getD []).map Prod.snd
      = (cs2.getLast?.getD []).map Prod.snd := by
    rw [← mapsnd_getLastD, ← mapsnd_getLastD, hcs]
  have hlen : (cs1.getLast?.getD []).length = (cs2.getLast?.getD []).length := by
    rw [← List.length_map _ Prod.snd, hcur, List.length_map]
  have havg : clusterAvg (cs1.getLast?.getD []) = clusterAvg (cs2.getLast?.getD []) := by
    rw [clusterAvg, clusterAvg, hcur, hlen]
  have hdrop : (cs1.dropLast).map (List.map Prod.snd)
      = (cs2.dropLast).map (List.map Prod.snd) := by
    rw [List.map_dropLast, List.map_dropLast, hcs]
  rw [clusterStep_def, clusterStep_def]
  by_cases h0 : (cs1.getLast?.getD []).length = 0
  · have h0' : (cs2.getLast?.getD []).length = 0 := by rw [← hlen]; exact h0
    rw [if_pos h0, if_pos h0']
    simp only [List.map_append, List.map_cons, List.map_nil]
    rw [hdrop, hcur, hp]
  · have h0' : ¬(cs2.getLast?.getD []).length = 0 := by rw [← hlen]; exact h0
    rw [if_neg h0, if_neg h0']
    by_cases hdev : |p1.2 - clusterAvg (cs1.getLast?.getD [])|
        < CLUSTER_THRESHOLD * clusterAvg (cs1.getLast?.getD [])
    · have hdev' : |p2.2 - clusterAvg (cs2.getLast?.getD [])|
          < CLUSTER_THRESHOLD * clusterAvg (cs2.getLast?.getD []) := by
        rw [← havg, ← hp]; exact hdev
      rw [if_pos hdev, if_pos hdev']
      simp only [List.map_append, List.map_cons, List.map_nil]
      rw [hdrop, hcur, hp]
    · have hdev' : ¬|p2.2 - clusterAvg (cs2.getLast?.getD [])|
          < CLUSTER_THRESHOLD * clusterAvg (cs2.getLast?.getD []) := by
        rw [← havg, ← hp]; exact hdev
      rw [if_neg hdev, if_neg hdev']
      by_cases h3 : (cs1.getLast?.getD []).length < 3
      · have h3' : (cs2.getLast?.getD []).length < 3 := by rw [← hlen]; exact h3
        rw [if_pos h3, if_pos h3']
        simp only [List.map_append, List.map_cons, List.map_nil]
        rw [hdrop, hp]
      · have h3' : ¬(cs2.getLast?.getD []).length < 3 := by rw [← hlen]; exact h3
        rw [if_neg h3, if_neg h3']
        simp only [List.map_append, List.map_cons, List.map_nil]
        rw [hcs, hp]

theorem foldl_clusterStep_congr :
    ∀ (pts1 pts2 : List Pt) (cs1 cs2 : List Cluster),
      pts1.map Prod.snd = pts2.map Prod.snd →
      cs1.map (List.map Prod.snd) = cs2.map (List.map Prod.snd) →
      (pts1.foldl clusterStep cs1).map (List.map Prod.snd)
        = (pts2.foldl clusterStep cs2).map (List.map Prod.snd) := by
  intro pts1
  induction pts1 with
  | nil =>
    intro pts2 cs1 cs2 hpts hcs
    have : pts2 = [] := by
      cases pts2 with
      | nil => rfl
      | cons p r => simp at hpts
    subst this
    exact hcs
  | cons p1 rest1 ih =>
    intro pts2 cs1 cs2 hpts hcs
    cases pts2 with
    | nil => simp at hpts
    | cons p2 rest2 =>
      rw [List.map_cons, List.map_cons] at hpts
      have hp : p1.2 = p2.2 := (List.cons.inj hpts).1
      have hrest : rest1.map Prod.snd = rest2.map Prod.snd := (List.cons.inj hpts).2
      rw [List.foldl_cons, List.foldl_cons]
      exact ih rest2 _ _ hrest (clusterStep_congr hcs hp)

theorem trimOnce_congr {c1 c2 : Cluster}
    (h : c1.map Prod.snd = c2.map Prod.snd) :
    (∃ e, trimOnce c1 = .error e ∧ trimOnce c2 = .error e) ∨
    (∃ d1 d2, trimOnce c1 = .ok d1 ∧ trimOnce c2 = .ok d2 ∧
      d1.map Prod.snd = d2.map Prod.snd) := by
  have hlen : c1.length = c2.length := by
    rw [← List.length_map _ Prod.snd, h, List.length_map]
  have havg : clusterAvg c1 = clusterAvg c2 := by
    rw [clusterAvg, clusterAvg, h, hlen]
  have hdev : c1.map (fun p => |p.2 - clusterAvg c1|)
      = c2.map (fun p => |p.2 - clusterAvg c2|) := by
    have h1 : c1.map (fun p => |p.2 - clusterAvg c1|)
        = (c1.map Prod.snd).map (fun x => |x - clusterAvg c1|) := by
      rw [List.map_map]
      rfl
    have h2 : c2.map (fun p => |p.2 - clusterAvg c2|)
        = (c2.map Prod.snd).map (fun x => |x - clusterAvg c2|) := by
      rw [List.map_map]
      rfl
    rw [h1, h2, h, havg]
  have hto : ∀ c : Cluster, trimOnce c =
      if c.length = 0 then .error .zeroDivisionError
      else
        match argmaxIdx (c.map (fun p => |p.2 - clusterAvg c|)) with
        | none => .error .typeError
        | some i => .ok (c.eraseIdx i) := fun _ => rfl
  by_cases h0 : c1.length = 0
  · have h0' : c2.length = 0 := by rw [← hlen]; exact h0
    left
    refine ⟨.zeroDivisionError, ?_, ?_⟩
    · rw [hto, if_pos h0]
    · rw [hto, if_pos h0']
  · right
    have h02 : ¬c2.length = 0 := by rw [← hlen]; exact h0
    cases hidx : argmaxIdx (c1.map fun p => |p.2 - clusterAvg c1|) with
    | none =>
      exfalso
      cases c1 with
      | nil => exact h0 rfl
      | cons q qs => simp [argmaxIdx] at hidx
    | some i =>
      refine ⟨c1.eraseIdx i, c2.eraseIdx i, ?_, ?_, ?_⟩
      · rw [hto, if_neg h0, hidx]
      · rw [hto, if_neg h02, ← hdev, hidx]
      · rw [eraseIdx_map, eraseIdx_map, h]

theorem trimLoop_congr :
    ∀ (k : ℕ) {c1 c2 : Cluster}, c1.map Prod.snd = c2.map Prod.snd →
      (∃ e, trimLoop k c1 = .error e ∧ trimLoop k c2 = .error e) ∨
      (∃ d1 d2, trimLoop k c1 = .ok d1 ∧ trimLoop k c2 = .ok d2 ∧
        d1.map Prod.snd = d2.map Prod.snd) := by
  intro k
  induction k with
  | zero => intro c1 c2 h; exact .inr ⟨c1, c2, rfl, rfl, h⟩
  | succ k ih =>
    intro c1 c2 h
    have hstep : ∀ c : Cluster, trimLoop (k + 1) c
        = Except.bind (trimOnce c) (trimLoop k) := fun _ => rfl
    rcases trimOnce_congr h with ⟨e, he1, he2⟩ | ⟨d1, d2, hd1, hd2, hd⟩
    · left
      exact ⟨e, by rw [hstep, he1, error_bind], by rw [hstep, he2, error_bind]⟩
    · rcases ih hd with ⟨e, he1, he2⟩ | ⟨d1', d2', hd1', hd2', hd'⟩
      · left
        exact ⟨e, by rw [hstep, hd1, ok_bind, he1], by rw [hstep, hd2, ok_bind, he2]⟩
      · right
        exact ⟨d1', d2', by rw [hstep, hd1, ok_bind, hd1'],
          by rw [hstep, hd2, ok_bind, hd2'], hd'⟩

theorem trimCluster_congr {c1 c2 : Cluster}
    (h : c1.map Prod.snd = c2.map Prod.snd) :
    (∃ e, trimCluster c1 = .error e ∧ trimCluster c2 = .error e) ∨
    (∃ d1 d2, trimCluster c1 = .ok d1 ∧ trimCluster c2 = .ok d2 ∧
      d1.map Prod.snd = d2.map Prod.snd) := by
  have hlen : c1.length = c2.length := by
    rw [← List.length_map _ Prod.snd, h, List.length_map]
  rw [trimCluster, trimCluster, ← hlen]
  exact trimLoop_congr (pointsToRemove c1.length) h

theorem levelOf_congr {c1 c2 : Cluster}
    (h : c1.map Prod.snd = c2.map Prod.snd) : levelOf c1 = levelOf c2 := by
  have hlen : c1.length = c2.length := by
    rw [← List.length_map _ Prod.snd, h, List.length_map]
  have havg : clusterAvg c1 = clusterAvg c2 := by
    rw [clusterAvg, clusterAvg, h, hlen]
  rw [levelOf, levelOf, havg, hlen]

theorem exMap_trimCluster_congr :
    ∀ {cls1 cls2 : List Cluster},
      cls1.map (List.map Prod.snd) = cls2.map (List.map Prod.snd) →
      (∃ e, exMap trimCluster cls1 = .error e ∧ exMap trimCluster cls2 = .error e) ∨
      (∃ out1 out2, exMap trimCluster cls1 = .ok out1 ∧
        exMap trimCluster cls2 = .ok out2 ∧
        out1.map (List.map Prod.snd) = out2.map (List.map Prod.snd)) := by
  intro cls1
  induction cls1 with
  | nil =>
    intro cls2 h
    have : cls2 = [] := by
      cases cls2 with
      | nil => rfl
      | cons c r => simp at h
    subst this
    exact .inr ⟨[], [], rfl, rfl, rfl⟩
  | cons c1 rest1 ih =>
    intro cls2 h
    cases cls2 with
    | nil => simp at h
    | cons c2 rest2 =>
      rw [List.map_cons, List.map_cons] at h
      have hc : c1.map Prod.snd = c2.map Prod.snd := (List.cons.inj h).1
      have hrest : rest1.map (List.map Prod.snd) = rest2.map (List.map Prod.snd) :=
        (List.cons.inj h).2
      rcases trimCluster_congr hc with ⟨e, he1, he2⟩ | ⟨d1, d2, hd1, hd2, hd⟩
      · left
        exact ⟨e, by rw [exMap_cons, he1, error_bind],
          by rw [exMap_cons, he2, error_bind]⟩
      · rcases ih hrest with ⟨e, he1, he2⟩ | ⟨out1, out2, ho1, ho2, ho⟩
        · left
          refine ⟨e, ?_, ?_⟩
          · rw [exMap_cons, hd1, ok_bind, he1, error_bind]
          · rw [exMap_cons, hd2, ok_bind, he2, error_bind]
        · right
          refine ⟨d1 :: out1, d2 :: out2, ?_, ?_, ?_⟩
          · rw [exMap_cons, hd1, ok_bind, ho1, ok_bind]
          · rw [exMap_cons, hd2, ok_bind, ho2, ok_bind]
          · rw [List.map_cons, List.map_cons, hd, ho]

theorem exMap_levelOf_congr :
    ∀ {cls1 cls2 : List Cluster},
      cls1.map (List.map Prod.snd) = cls2.map (List.map Prod.snd) →
      exMap levelOf cls1 = exMap levelOf cls2 := by
  intro cls1
  induction cls1 with
  | nil =>
    intro cls2 h
    have : cls2 = [] := by
      cases cls2 with
      | nil => rfl
      | cons c r => simp at h
    subst this
    rfl
  | cons c1 rest1 ih =>
    intro cls2 h
    cases cls2 with
    | nil => simp at h
    | cons c2 rest2 =>
      rw [List.map_cons, List.map_cons] at h
      have hc : c1.map Prod.snd = c2.map Prod.snd := (List.cons.inj h).1
      have hrest : rest1.map (List.map Prod.snd) = rest2.map (List.map Prod.snd) :=
        (List.cons.inj h).2
      rw [exMap_cons, exMap_cons, levelOf_congr hc, ih hrest]

/-- C10.  With plotting disabled, the bandwidth list returned by
`get_bandwidth` is a function of the derived rate sequence alone: any two
(memory sweep, frequency) inputs that induce the same ordered rate sequence
`frequency_hz * (size / cycles)` produce identical results — the byte sizes
carried through the clusters are dead data. -/
theorem c10_rate_determined :
    ∀ (s1 s2 : List (ℤ × ℤ)) (f1 f2 : ℤ) (rs : List ℚ),
      computeRates s1 f1 = .ok rs → computeRates s2 f2 = .ok rs →
      get_bandwidth s1 f1 = get_bandwidth s2 f2 := by
  intro s1 s2 f1 f2 rs h1 h2
  have hlen1 : rs.length = s1.length := by
    have := exMap_ok_length (by rw [computeRates_eq] at h1; exact h1)
    exact this
  have hlen2 : rs.length = s2.length := by
    have := exMap_ok_length (by rw [computeRates_eq] at h2; exact h2)
    exact this
  have hsnd1 : ((s1.map Prod.fst).zip rs).map Prod.snd = rs :=
    List.map_snd_zip _ _ (by rw [List.length_map]; omega)
  have hsnd2 : ((s2.map Prod.fst).zip rs).map Prod.snd = rs :=
    List.map_snd_zip _ _ (by rw [List.length_map]; omega)
  have hfold := foldl_clusterStep_congr ((s1.map Prod.fst).zip rs)
    ((s2.map Prod.fst).zip rs) [[]] [[]] (by rw [hsnd1, hsnd2]) rfl
  rw [get_bandwidth_eq_of_rates h1, get_bandwidth_eq_of_rates h2]
  rcases exMap_trimCluster_congr hfold with ⟨e, he1, he2⟩ | ⟨out1, out2, ho1, ho2, ho⟩
  · rw [he1, he2]
  · rw [ho1, ho2, ok_bind, ok_bind]
    exact exMap_levelOf_congr ho

/-- C10, witness: the sweeps `{64:10, 128:20}` and `{32:5, 256:40}` at 1 GHz
have different byte sizes but the same rate sequence `[6.4e9, 6.4e9]`, and
`get_bandwidth` returns identical results on them. -/
theorem c10_witness :
    get_bandwidth [(64, 10), (128, 20)] 1000000000
      = get_bandwidth [(32, 5), (256, 40)] 1000000000 := by
  refine c10_rate_determined [(64, 10), (128, 20)] [(32, 5), (256, 40)]
    1000000000 1000000000 [6400000000, 6400000000] ?_ ?_
  · norm_num [computeRates, exMap, rateOf, Except.bind, bind, pure, Except.pure,
      List.zip, List.zipWith]
  · norm_num [computeRates, exMap, rateOf, Except.bind, bind, pure, Except.pure,
      List.zip, List.zipWith]

end Carm
